import Mathlib

/-!
Verification of the FontClassificationTool measurement-and-normalization
pipeline (`util.py`).

The embedding models:

* `find_extremes` and `group_by_attributes` — min/max extraction over a batch
  and min-max normalization of per-font darkness and relative-width values
  into integer bands.  Raw measurements are modelled as exact rationals; the
  measurement function `compute_darkness_and_width` is abstracted as a
  parameter `measure` giving the (darkness, width) pair of each font, since
  the rasterizer is an external collaborator.  Font batches are association
  lists keyed by font name; as in the Python original the names of a batch
  are dictionary keys and hence assumed distinct.
* `compute_darkness_and_width` — the pixel-aggregation core of the darkness
  and relative-width computation, with the two divisions modelled as fallible
  (Python raises ZeroDivisionError on a zero denominator).
* `save_csv` / `read_csv` — the classification record store.  A CSV file is
  modelled at the level of the Python `csv` module interface, as a list of
  rows, each row a list of string fields.  Python `str` applied to an int is
  modelled by `pyStr`, and the `int` constructor applied to a string by
  `pyInt`; `None` fields are written as the empty string, as `csv.writer`
  does.  Exceptions escaping `read_csv` are modelled by `Option`.
-/

/-- Model of `find_extremes`: minimum and maximum of the values of a dict,
given as an association list.  Python `min`/`max` raise on an empty
collection, hence the `Option`. -/
def find_extremes (d : List (String × ℚ)) : Option (ℚ × ℚ) :=
  match d.map Prod.snd with
  | [] => none
  | v :: vs => some (vs.foldl min v, vs.foldl max v)

/-- Dictionary of one raw metric for each font of a batch, as built by the
measurement loop of `group_by_attributes` (`darkness[name], width[name] =
compute_darkness_and_width(name, subsets)`). -/
def metric_dict {σ : Type} (sel : String × σ → ℚ) (fonts : List (String × σ)) :
    List (String × ℚ) :=
  fonts.map (fun f => (f.1, sel f))

/-- Band formula of `group_by_attributes`:
`min(10, int(1 + floor(10 * ((value - lo) / range))))`. -/
def band_of (lo range v : ℚ) : Int :=
  min 10 (1 + Int.floor (10 * ((v - lo) / range)))

/-- Normalization of one metric over a batch: every font gets the fixed band
5 when the observed range is zero, otherwise each value is mapped through
`band_of`. -/
def bands {σ : Type} (fonts : List (String × σ)) (values : List (String × ℚ))
    (lo range : ℚ) : List (String × Int) :=
  if range = 0 then fonts.map (fun f => (f.1, (5 : Int)))
  else values.map (fun p => (p.1, band_of lo range p.2))

/-- Model of `group_by_attributes`.  The parameter `measure` stands for
`compute_darkness_and_width`, giving the (darkness, width) measurement of a
font name with its subsets (of abstract type `σ`); `fonts` is the input list
of (name, subsets) pairs.  Returns the weight dict and the width dict, or
fails (Python `min`/`max` raise) on an empty batch. -/
def group_by_attributes {σ : Type} (measure : String → σ → ℚ × ℚ)
    (fonts : List (String × σ)) :
    Option (List (String × Int) × List (String × Int)) :=
  let darkness := metric_dict (fun f => (measure f.1 f.2).1) fonts
  let width := metric_dict (fun f => (measure f.1 f.2).2) fonts
  match find_extremes darkness, find_extremes width with
  | some (min_dark, max_dark), some (min_width, max_width) =>
      some (bands fonts darkness min_dark (max_dark - min_dark),
            bands fonts width min_width (max_width - min_width))
  | _, _ => none

/-- Model of the metric-extraction core of `compute_darkness_and_width`.  The
rendered surface is abstracted as a byte map `pixel_data` together with its
width, stride and height; `text_width` and `x_height` are the layout metrics
of the two text-extents calls.  The alpha of pixel (x, y) is byte
`y*stride + 4*x + 3`.  Darkness is the alpha average over all pixels and
relative width is `text_width / x_height`; both divisions raise
ZeroDivisionError in Python on a zero denominator, modelled by `none`. -/
def compute_darkness_and_width (pixel_data : Nat → Nat)
    (data_width data_stride data_height : Nat) (text_width x_height : ℚ) :
    Option (ℚ × ℚ) :=
  let avg : ℚ :=
    ((List.range data_width).map (fun x =>
      ((List.range data_height).map (fun y =>
        (pixel_data (y * data_stride + 4 * x + 3) : ℚ) / 255)).sum)).sum
  if data_width * data_height = 0 then none
  else if x_height = 0 then none
  else some (avg / ((data_width : ℚ) * (data_height : ℚ)), text_width / x_height)

/-- Big-endian decimal digit list of a natural number, with explicit fuel
(the number itself suffices). -/
def natDigits : Nat → Nat → List Char
  | 0, _ => []
  | fuel + 1, n =>
      if n = 0 then [] else natDigits fuel (n / 10) ++ [Nat.digitChar (n % 10)]

/-- Decimal string of a natural number, modelling Python `str` on a
non-negative int. -/
def pyStrNat (n : Nat) : String :=
  if n = 0 then "0" else String.mk (natDigits n n)

/-- Model of Python `str` applied to an int. -/
def pyStr (n : Int) : String :=
  if n < 0 then "-" ++ pyStrNat n.natAbs else pyStrNat n.natAbs

/-- Numeric value of a decimal digit character. -/
def digitVal (c : Char) : Nat := c.toNat - 48

/-- Parse a non-empty all-digit character list as a natural number. -/
def parseDigits (l : List Char) : Option Nat :=
  if l = [] then none
  else if l.all (fun c => c.isDigit) then
    some (l.foldl (fun a c => a * 10 + digitVal c) 0)
  else none

/-- Model of the Python `int` constructor applied to a string: an optional
sign followed by at least one decimal digit; anything else raises ValueError,
modelled by `none`. -/
def pyInt (s : String) : Option Int :=
  match s.data with
  | [] => none
  | c :: rest =>
      if c = '-' then (parseDigits rest).map (fun k => -(Int.ofNat k))
      else if c = '+' then (parseDigits rest).map (fun k => Int.ofNat k)
      else (parseDigits (c :: rest)).map (fun k => Int.ofNat k)

/-- Per-font record of the classification store, as read and written by
`read_csv` and `save_csv`. -/
structure FontRecord where
  weight_int : Int
  angle_int : Int
  width_int : Int
  usage : String
  subsets : Option String
deriving DecidableEq

/-- Serialization of an optional field: `csv.writer` writes `None` as the
empty string. -/
def optField : Option String → String
  | some s => s
  | none => ""

/-- One data row written by `save_csv` for font `gfn`.  In publish-cleanup
mode a band outside 1..10 (`fwe-1 not in range(10)`) and a usage other than
body/header are blanked, and the SUBSETS column is dropped. -/
def save_row (cleanup_for_publishing : Bool) (gfn : String) (data : FontRecord) :
    List String :=
  if cleanup_for_publishing then
    [gfn,
     if 1 ≤ data.weight_int ∧ data.weight_int ≤ 10 then pyStr data.weight_int else "",
     if 1 ≤ data.angle_int ∧ data.angle_int ≤ 10 then pyStr data.angle_int else "",
     if 1 ≤ data.width_int ∧ data.width_int ≤ 10 then pyStr data.width_int else "",
     if data.usage = "body" ∨ data.usage = "header" then data.usage else ""]
  else
    [gfn, pyStr data.weight_int, pyStr data.angle_int, pyStr data.width_int,
     data.usage, optField data.subsets]

/-- Model of `save_csv`: a header row, then one row per font in ascending
order of font name (`for gfn in sorted(metadata.keys())`). -/
def save_csv (metadata : List (String × FontRecord))
    (cleanup_for_publishing : Bool) : List (List String) :=
  (if cleanup_for_publishing then ["GFN", "FWE", "FIA", "FWI", "USAGE"]
   else ["GFN", "FWE", "FIA", "FWI", "USAGE", "SUBSETS"]) ::
  (metadata.mergeSort (fun a b => decide (a.1 ≤ b.1))).map
    (fun p => save_row cleanup_for_publishing p.1 p.2)

/-- Python dict assignment `metadata[gfn] = v` on a dict modelled as an
association list in insertion order: an existing key is updated in place, a
new key is appended. -/
def dictInsert (m : List (String × FontRecord)) (gfn : String) (v : FontRecord) :
    List (String × FontRecord) :=
  if m.any (fun p => p.1 == gfn) then
    m.map (fun p => if p.1 == gfn then (gfn, v) else p)
  else m ++ [(gfn, v)]

/-- Parsing of one data row by the loop body of `read_csv`: field 0 is the
font name, a row with fewer than 6 fields has no SUBSETS value, fields 1-3
must parse as ints, field 4 is the usage.  A missing field (IndexError) or a
non-integer band field (ValueError) raises, modelled by `none`. -/
def parse_row (row : List String) : Option (String × FontRecord) := do
  let gfn ← row.get? 0
  let subsets := if row.length < 6 then none else row.get? 5
  let w ← row.get? 1
  let weight_int ← pyInt w
  let a ← row.get? 2
  let angle_int ← pyInt a
  let wi ← row.get? 3
  let width_int ← pyInt wi
  let usage ← row.get? 4
  pure (gfn, ⟨weight_int, angle_int, width_int, usage, subsets⟩)

/-- One iteration of the row loop of `read_csv`: parse the row and store its
record under its font name. -/
def read_row_step (metadata : List (String × FontRecord)) (row : List String) :
    Option (List (String × FontRecord)) := do
  let p ← parse_row row
  pure (dictInsert metadata p.1 p.2)

/-- Model of `read_csv`: skip the header row (`next` raises StopIteration on
an empty file), then fold the data rows into a dict keyed by font name.  Any
exception aborts the whole read. -/
def read_csv (rows : List (List String)) :
    Option (List (String × FontRecord)) :=
  match rows with
  | [] => none
  | _ :: dataRows => dataRows.foldlM read_row_step []

/-! Helper lemmas about running minima and maxima, as computed by Python
`min`/`max` over an iterable. -/

theorem foldl_min_le_init (l : List ℚ) (a : ℚ) : l.foldl min a ≤ a := by
  induction l generalizing a with
  | nil => exact le_refl a
  | cons b t ih => exact le_trans (ih (min a b)) (min_le_left a b)

theorem foldl_min_le_mem (l : List ℚ) (a v : ℚ) (hv : v ∈ l) :
    l.foldl min a ≤ v := by
  induction l generalizing a with
  | nil => cases hv
  | cons b t ih =>
      rcases List.mem_cons.mp hv with h | h
      · subst h
        exact le_trans (foldl_min_le_init t (min a v)) (min_le_right a v)
      · exact ih (min a b) h

theorem le_foldl_min (l : List ℚ) (a c : ℚ) (h1 : c ≤ a)
    (h2 : ∀ v ∈ l, c ≤ v) : c ≤ l.foldl min a := by
  induction l generalizing a with
  | nil => exact h1
  | cons b t ih =>
      exact ih (min a b) (le_min h1 (h2 b (List.mem_cons_self b t)))
        (fun v hv => h2 v (List.mem_cons_of_mem b hv))

theorem init_le_foldl_max (l : List ℚ) (a : ℚ) : a ≤ l.foldl max a := by
  induction l generalizing a with
  | nil => exact le_refl a
  | cons b t ih => exact le_trans (le_max_left a b) (ih (max a b))

theorem mem_le_foldl_max (l : List ℚ) (a v : ℚ) (hv : v ∈ l) :
    v ≤ l.foldl max a := by
  induction l generalizing a with
  | nil => cases hv
  | cons b t ih =>
      rcases List.mem_cons.mp hv with h | h
      · subst h
        exact le_trans (le_max_right a v) (init_le_foldl_max t (max a v))
      · exact ih (max a b) h

theorem foldl_max_le (l : List ℚ) (a c : ℚ) (h1 : a ≤ c)
    (h2 : ∀ v ∈ l, v ≤ c) : l.foldl max a ≤ c := by
  induction l generalizing a with
  | nil => exact h1
  | cons b t ih =>
      exact ih (max a b) (max_le h1 (h2 b (List.mem_cons_self b t)))
        (fun v hv => h2 v (List.mem_cons_of_mem b hv))

theorem foldl_min_le_foldl_max (l : List ℚ) (a : ℚ) :
    l.foldl min a ≤ l.foldl max a :=
  le_trans (foldl_min_le_init l a) (init_le_foldl_max l a)

/-- Running minimum over the values seen by `find_extremes`, head first. -/
theorem lo_le_of_mem (a : ℚ) (l : List ℚ) (v : ℚ) (hv : v ∈ a :: l) :
    l.foldl min a ≤ v := by
  rcases List.mem_cons.mp hv with h | h
  · subst h; exact foldl_min_le_init l v
  · exact foldl_min_le_mem l a v h

/-- Running maximum over the values seen by `find_extremes`, head first. -/
theorem le_hi_of_mem (a : ℚ) (l : List ℚ) (v : ℚ) (hv : v ∈ a :: l) :
    v ≤ l.foldl max a := by
  rcases List.mem_cons.mp hv with h | h
  · subst h; exact init_le_foldl_max l v
  · exact mem_le_foldl_max l a v h

/-! Helper lemmas about the band formula. -/

theorem band_of_le_ten (lo range v : ℚ) : band_of lo range v ≤ 10 :=
  min_le_left 10 _

theorem one_le_band_of (lo range v : ℚ) (hrange : 0 < range) (hv : lo ≤ v) :
    1 ≤ band_of lo range v := by
  refine le_min (by norm_num) ?_
  have hq : (0 : ℚ) ≤ 10 * ((v - lo) / range) := by
    apply mul_nonneg (by norm_num)
    exact div_nonneg (by linarith) (le_of_lt hrange)
  have := Int.floor_nonneg.mpr hq
  omega

theorem band_of_at_lo (lo range : ℚ) : band_of lo range lo = 1 := by
  unfold band_of
  rw [sub_self, zero_div, mul_zero, Int.floor_zero]
  norm_num

theorem band_of_at_hi (lo range : ℚ) (hrange : range ≠ 0) :
    band_of lo range (lo + range) = 10 := by
  unfold band_of
  rw [add_sub_cancel_left, div_self hrange, mul_one]
  norm_num

theorem band_of_mono (lo range x y : ℚ) (hrange : 0 < range) (hxy : x ≤ y) :
    band_of lo range x ≤ band_of lo range y := by
  unfold band_of
  have hdiv : (x - lo) / range ≤ (y - lo) / range :=
    div_le_div_of_nonneg_right (by linarith) (le_of_lt hrange)
  have := Int.floor_le_floor (α := ℚ)
    (mul_le_mul_of_nonneg_left hdiv (by norm_num : (0:ℚ) ≤ 10))
  exact min_le_min (le_refl 10) (by omega)

/-- Unfolding of `group_by_attributes` on a non-empty batch: both extremes
come from the running folds over the metric values, head value first. -/
theorem group_by_attributes_cons {σ : Type} (measure : String → σ → ℚ × ℚ)
    (f : String × σ) (fs : List (String × σ)) :
    group_by_attributes measure (f :: fs) =
      some
        (bands (f :: fs) (metric_dict (fun q => (measure q.1 q.2).1) (f :: fs))
          (((metric_dict (fun q => (measure q.1 q.2).1) fs).map Prod.snd).foldl
            min (measure f.1 f.2).1)
          (((metric_dict (fun q => (measure q.1 q.2).1) fs).map Prod.snd).foldl
            max (measure f.1 f.2).1 -
           ((metric_dict (fun q => (measure q.1 q.2).1) fs).map Prod.snd).foldl
            min (measure f.1 f.2).1),
         bands (f :: fs) (metric_dict (fun q => (measure q.1 q.2).2) (f :: fs))
          (((metric_dict (fun q => (measure q.1 q.2).2) fs).map Prod.snd).foldl
            min (measure f.1 f.2).2)
          (((metric_dict (fun q => (measure q.1 q.2).2) fs).map Prod.snd).foldl
            max (measure f.1 f.2).2 -
           ((metric_dict (fun q => (measure q.1 q.2).2) fs).map Prod.snd).foldl
            min (measure f.1 f.2).2)) := rfl

/-- C10: a batch has to be non-empty; on the empty batch the minimum of an
empty value collection is undefined and `group_by_attributes` fails instead
of returning empty band mappings. -/
theorem group_by_attributes_empty_fails {σ : Type}
    (measure : String → σ → ℚ × ℚ) :
    group_by_attributes measure ([] : List (String × σ)) = none := rfl

/-! Lemmas relating a metric dict to its value list. -/

theorem metric_values_cons {σ : Type} (sel : String × σ → ℚ) (f : String × σ)
    (fs : List (String × σ)) :
    (metric_dict sel (f :: fs)).map Prod.snd =
      sel f :: (metric_dict sel fs).map Prod.snd := rfl

theorem sel_mem_metric_values {σ : Type} (sel : String × σ → ℚ)
    (fonts : List (String × σ)) (q : String × σ) (hq : q ∈ fonts) :
    sel q ∈ (metric_dict sel fonts).map Prod.snd :=
  List.mem_map_of_mem Prod.snd (List.mem_map_of_mem _ hq)

theorem metric_values_mem {σ : Type} (sel : String × σ → ℚ)
    (fonts : List (String × σ)) (u : ℚ)
    (hu : u ∈ (metric_dict sel fonts).map Prod.snd) :
    ∃ q ∈ fonts, sel q = u := by
  obtain ⟨p, hp, rfl⟩ := List.mem_map.mp hu
  obtain ⟨q, hq, rfl⟩ := List.mem_map.mp hp
  exact ⟨q, hq, rfl⟩

/-! Lemmas about `bands` over the extremes actually computed by
`find_extremes` on a non-empty batch. -/

theorem bands_mem_bounds {σ : Type} (sel : String × σ → ℚ) (f : String × σ)
    (fs : List (String × σ)) (p : String × Int)
    (hp : p ∈ bands (f :: fs) (metric_dict sel (f :: fs))
      (((metric_dict sel fs).map Prod.snd).foldl min (sel f))
      (((metric_dict sel fs).map Prod.snd).foldl max (sel f) -
        ((metric_dict sel fs).map Prod.snd).foldl min (sel f))) :
    1 ≤ p.2 ∧ p.2 ≤ 10 := by
  unfold bands at hp
  split at hp
  case isTrue hdeg =>
    obtain ⟨q, hq, rfl⟩ := List.mem_map.mp hp
    exact ⟨by norm_num, by norm_num⟩
  case isFalse hdeg =>
    obtain ⟨q, hq, rfl⟩ := List.mem_map.mp hp
    have hv : q.2 ∈ sel f :: (metric_dict sel fs).map Prod.snd := by
      rw [← metric_values_cons]
      exact List.mem_map_of_mem Prod.snd hq
    have hlo := lo_le_of_mem (sel f) ((metric_dict sel fs).map Prod.snd) q.2 hv
    have hle := foldl_min_le_foldl_max ((metric_dict sel fs).map Prod.snd) (sel f)
    have hpos : 0 < ((metric_dict sel fs).map Prod.snd).foldl max (sel f) -
        ((metric_dict sel fs).map Prod.snd).foldl min (sel f) :=
      lt_of_le_of_ne (by linarith) (Ne.symm hdeg)
    exact ⟨one_le_band_of _ _ _ hpos hlo, band_of_le_ten _ _ _⟩

theorem bands_min_gets_one {σ : Type} (sel : String × σ → ℚ) (f : String × σ)
    (fs : List (String × σ)) (n : String) (s : σ) (hmem : (n, s) ∈ f :: fs)
    (hmin : ∀ q ∈ f :: fs, sel (n, s) ≤ sel q)
    (hne : ∃ q ∈ f :: fs, sel q ≠ sel (n, s)) :
    (n, (1 : Int)) ∈ bands (f :: fs) (metric_dict sel (f :: fs))
      (((metric_dict sel fs).map Prod.snd).foldl min (sel f))
      (((metric_dict sel fs).map Prod.snd).foldl max (sel f) -
        ((metric_dict sel fs).map Prod.snd).foldl min (sel f)) := by
  have hvmem : sel (n, s) ∈ sel f :: (metric_dict sel fs).map Prod.snd := by
    rw [← metric_values_cons]
    exact sel_mem_metric_values sel (f :: fs) (n, s) hmem
  have h1 := lo_le_of_mem (sel f) ((metric_dict sel fs).map Prod.snd) _ hvmem
  have h2 : sel (n, s) ≤
      ((metric_dict sel fs).map Prod.snd).foldl min (sel f) := by
    refine le_foldl_min _ _ _ (hmin f (List.mem_cons_self f fs)) ?_
    intro v hv
    obtain ⟨q, hq, rfl⟩ := metric_values_mem sel fs v hv
    exact hmin q (List.mem_cons_of_mem f hq)
  have hLO := le_antisymm h1 h2
  obtain ⟨q, hq, hqne⟩ := hne
  have h3 : sel q ≤ ((metric_dict sel fs).map Prod.snd).foldl max (sel f) := by
    refine le_hi_of_mem (sel f) ((metric_dict sel fs).map Prod.snd) _ ?_
    rw [← metric_values_cons]
    exact sel_mem_metric_values sel (f :: fs) q hq
  have h4 : sel (n, s) < sel q := lt_of_le_of_ne (hmin q hq) (Ne.symm hqne)
  have hrange : ((metric_dict sel fs).map Prod.snd).foldl max (sel f) -
      ((metric_dict sel fs).map Prod.snd).foldl min (sel f) ≠ 0 := by
    rw [hLO]
    have : sel (n, s) <
        ((metric_dict sel fs).map Prod.snd).foldl max (sel f) :=
      lt_of_lt_of_le h4 h3
    exact ne_of_gt (by linarith)
  unfold bands
  rw [if_neg hrange]
  have hb : band_of (((metric_dict sel fs).map Prod.snd).foldl min (sel f))
      (((metric_dict sel fs).map Prod.snd).foldl max (sel f) -
        ((metric_dict sel fs).map Prod.snd).foldl min (sel f))
      (sel (n, s)) = 1 := by
    rw [hLO]
    exact band_of_at_lo _ _
  rw [← hb]
  exact List.mem_map_of_mem _ (List.mem_map_of_mem _ hmem)

theorem bands_max_gets_ten {σ : Type} (sel : String × σ → ℚ) (f : String × σ)
    (fs : List (String × σ)) (n : String) (s : σ) (hmem : (n, s) ∈ f :: fs)
    (hmax : ∀ q ∈ f :: fs, sel q ≤ sel (n, s))
    (hne : ∃ q ∈ f :: fs, sel q ≠ sel (n, s)) :
    (n, (10 : Int)) ∈ bands (f :: fs) (metric_dict sel (f :: fs))
      (((metric_dict sel fs).map Prod.snd).foldl min (sel f))
      (((metric_dict sel fs).map Prod.snd).foldl max (sel f) -
        ((metric_dict sel fs).map Prod.snd).foldl min (sel f)) := by
  have hvmem : sel (n, s) ∈ sel f :: (metric_dict sel fs).map Prod.snd := by
    rw [← metric_values_cons]
    exact sel_mem_metric_values sel (f :: fs) (n, s) hmem
  have h1 := le_hi_of_mem (sel f) ((metric_dict sel fs).map Prod.snd) _ hvmem
  have h2 : ((metric_dict sel fs).map Prod.snd).foldl max (sel f) ≤
      sel (n, s) := by
    refine foldl_max_le _ _ _ (hmax f (List.mem_cons_self f fs)) ?_
    intro v hv
    obtain ⟨q, hq, rfl⟩ := metric_values_mem sel fs v hv
    exact hmax q (List.mem_cons_of_mem f hq)
  have hHI := le_antisymm h2 h1
  obtain ⟨q, hq, hqne⟩ := hne
  have h3 : ((metric_dict sel fs).map Prod.snd).foldl min (sel f) ≤ sel q := by
    refine lo_le_of_mem (sel f) ((metric_dict sel fs).map Prod.snd) _ ?_
    rw [← metric_values_cons]
    exact sel_mem_metric_values sel (f :: fs) q hq
  have h4 : sel q < sel (n, s) := lt_of_le_of_ne (hmax q hq) hqne
  have hrange : ((metric_dict sel fs).map Prod.snd).foldl max (sel f) -
      ((metric_dict sel fs).map Prod.snd).foldl min (sel f) ≠ 0 := by
    rw [hHI]
    have : ((metric_dict sel fs).map Prod.snd).foldl min (sel f) < sel (n, s) :=
      lt_of_le_of_lt h3 h4
    exact ne_of_gt (by linarith)
  unfold bands
  rw [if_neg hrange]
  have hb : band_of (((metric_dict sel fs).map Prod.snd).foldl min (sel f))
      (((metric_dict sel fs).map Prod.snd).foldl max (sel f) -
        ((metric_dict sel fs).map Prod.snd).foldl min (sel f))
      (sel (n, s)) = 10 := by
    have hv : sel (n, s) =
        ((metric_dict sel fs).map Prod.snd).foldl min (sel f) +
        (((metric_dict sel fs).map Prod.snd).foldl max (sel f) -
          ((metric_dict sel fs).map Prod.snd).foldl min (sel f)) := by
      rw [hHI]; ring
    rw [hv]
    exact band_of_at_hi _ _ hrange
  rw [← hb]
  exact List.mem_map_of_mem _ (List.mem_map_of_mem _ hmem)

theorem bands_mono_pair {σ : Type} (sel : String × σ → ℚ) (f : String × σ)
    (fs : List (String × σ)) (a : String) (sa : σ) (b : String) (sb : σ)
    (ha : (a, sa) ∈ f :: fs) (hb : (b, sb) ∈ f :: fs)
    (hlt : sel (a, sa) < sel (b, sb)) :
    ∃ wa wb : Int,
      (a, wa) ∈ bands (f :: fs) (metric_dict sel (f :: fs))
        (((metric_dict sel fs).map Prod.snd).foldl min (sel f))
        (((metric_dict sel fs).map Prod.snd).foldl max (sel f) -
          ((metric_dict sel fs).map Prod.snd).foldl min (sel f)) ∧
      (b, wb) ∈ bands (f :: fs) (metric_dict sel (f :: fs))
        (((metric_dict sel fs).map Prod.snd).foldl min (sel f))
        (((metric_dict sel fs).map Prod.snd).foldl max (sel f) -
          ((metric_dict sel fs).map Prod.snd).foldl min (sel f)) ∧
      wa ≤ wb := by
  have hva : ((metric_dict sel fs).map Prod.snd).foldl min (sel f) ≤
      sel (a, sa) := by
    refine lo_le_of_mem (sel f) ((metric_dict sel fs).map Prod.snd) _ ?_
    rw [← metric_values_cons]
    exact sel_mem_metric_values sel (f :: fs) (a, sa) ha
  have hvb : sel (b, sb) ≤
      ((metric_dict sel fs).map Prod.snd).foldl max (sel f) := by
    refine le_hi_of_mem (sel f) ((metric_dict sel fs).map Prod.snd) _ ?_
    rw [← metric_values_cons]
    exact sel_mem_metric_values sel (f :: fs) (b, sb) hb
  have hpos : 0 < ((metric_dict sel fs).map Prod.snd).foldl max (sel f) -
      ((metric_dict sel fs).map Prod.snd).foldl min (sel f) := by linarith
  unfold bands
  rw [if_neg (ne_of_gt hpos)]
  exact ⟨_, _, List.mem_map_of_mem _ (List.mem_map_of_mem _ ha),
    List.mem_map_of_mem _ (List.mem_map_of_mem _ hb),
    band_of_mono _ _ _ _ hpos (le_of_lt hlt)⟩

theorem bands_all_five {σ : Type} (sel : String × σ → ℚ) (f : String × σ)
    (fs : List (String × σ)) (heq : ∀ q ∈ f :: fs, sel q = sel f)
    (p : String × Int)
    (hp : p ∈ bands (f :: fs) (metric_dict sel (f :: fs))
      (((metric_dict sel fs).map Prod.snd).foldl min (sel f))
      (((metric_dict sel fs).map Prod.snd).foldl max (sel f) -
        ((metric_dict sel fs).map Prod.snd).foldl min (sel f))) :
    p.2 = 5 := by
  have htail : ∀ v ∈ (metric_dict sel fs).map Prod.snd, v = sel f := by
    intro v hv
    obtain ⟨q, hq, rfl⟩ := metric_values_mem sel fs v hv
    exact heq q (List.mem_cons_of_mem f hq)
  have hLO : ((metric_dict sel fs).map Prod.snd).foldl min (sel f) = sel f :=
    le_antisymm (foldl_min_le_init _ _)
      (le_foldl_min _ _ _ (le_refl _) (fun v hv => (htail v hv).ge))
  have hHI : ((metric_dict sel fs).map Prod.snd).foldl max (sel f) = sel f :=
    le_antisymm (foldl_max_le _ _ _ (le_refl _) (fun v hv => (htail v hv).le))
      (init_le_foldl_max _ _)
  unfold bands at hp
  rw [if_pos (by rw [hLO, hHI]; ring)] at hp
  obtain ⟨q, hq, rfl⟩ := List.mem_map.mp hp
  rfl

/-- C1: every weight band and every width band produced by
`group_by_attributes` on an accepted batch is an integer between 1 and 10,
in both the degenerate (zero-range) and the non-degenerate case. -/
theorem group_bands_in_range {σ : Type} (measure : String → σ → ℚ × ℚ)
    (fonts : List (String × σ)) (weights widths : List (String × Int))
    (hnodup : (fonts.map Prod.fst).Nodup)
    (h : group_by_attributes measure fonts = some (weights, widths)) :
    (∀ p ∈ weights, 1 ≤ p.2 ∧ p.2 ≤ 10) ∧
    (∀ p ∈ widths, 1 ≤ p.2 ∧ p.2 ≤ 10) := by
  cases fonts with
  | nil => exact Option.noConfusion h
  | cons f fs =>
      rw [group_by_attributes_cons] at h
      injection h with h2
      injection h2 with hW hWd
      subst hW
      subst hWd
      exact ⟨fun p hp => bands_mem_bounds _ f fs p hp,
        fun p hp => bands_mem_bounds _ f fs p hp⟩

/-- C3: in a non-degenerate batch the font whose raw value equals the batch
minimum receives band 1 and the font whose raw value equals the batch maximum
receives band 10, on the darkness metric as well as on the relative-width
metric. -/
theorem group_extreme_fonts_get_one_and_ten {σ : Type}
    (measure : String → σ → ℚ × ℚ) (fonts : List (String × σ))
    (weights widths : List (String × Int))
    (hnodup : (fonts.map Prod.fst).Nodup)
    (h : group_by_attributes measure fonts = some (weights, widths))
    (n : String) (s : σ) (hmem : (n, s) ∈ fonts) :
    ((∀ q ∈ fonts, (measure n s).1 ≤ (measure q.1 q.2).1) →
      (∃ q ∈ fonts, (measure q.1 q.2).1 ≠ (measure n s).1) →
      (n, (1 : Int)) ∈ weights) ∧
    ((∀ q ∈ fonts, (measure q.1 q.2).1 ≤ (measure n s).1) →
      (∃ q ∈ fonts, (measure q.1 q.2).1 ≠ (measure n s).1) →
      (n, (10 : Int)) ∈ weights) ∧
    ((∀ q ∈ fonts, (measure n s).2 ≤ (measure q.1 q.2).2) →
      (∃ q ∈ fonts, (measure q.1 q.2).2 ≠ (measure n s).2) →
      (n, (1 : Int)) ∈ widths) ∧
    ((∀ q ∈ fonts, (measure q.1 q.2).2 ≤ (measure n s).2) →
      (∃ q ∈ fonts, (measure q.1 q.2).2 ≠ (measure n s).2) →
      (n, (10 : Int)) ∈ widths) := by
  cases fonts with
  | nil => exact Option.noConfusion h
  | cons f fs =>
      rw [group_by_attributes_cons] at h
      injection h with h2
      injection h2 with hW hWd
      subst hW
      subst hWd
      exact ⟨fun hmin hne => bands_min_gets_one _ f fs n s hmem hmin hne,
        fun hmax hne => bands_max_gets_ten _ f fs n s hmem hmax hne,
        fun hmin hne => bands_min_gets_one _ f fs n s hmem hmin hne,
        fun hmax hne => bands_max_gets_ten _ f fs n s hmem hmax hne⟩

/-- C4: band assignment is monotone within a batch; a strictly smaller
darkness never yields a strictly larger weight band, and likewise for
relative width and the width band. -/
theorem group_bands_monotone {σ : Type} (measure : String → σ → ℚ × ℚ)
    (fonts : List (String × σ)) (weights widths : List (String × Int))
    (hnodup : (fonts.map Prod.fst).Nodup)
    (h : group_by_attributes measure fonts = some (weights, widths))
    (a : String) (sa : σ) (b : String) (sb : σ)
    (ha : (a, sa) ∈ fonts) (hb : (b, sb) ∈ fonts) :
    ((measure a sa).1 < (measure b sb).1 →
      ∃ wa wb : Int, (a, wa) ∈ weights ∧ (b, wb) ∈ weights ∧ wa ≤ wb) ∧
    ((measure a sa).2 < (measure b sb).2 →
      ∃ wa wb : Int, (a, wa) ∈ widths ∧ (b, wb) ∈ widths ∧ wa ≤ wb) := by
  cases fonts with
  | nil => exact Option.noConfusion h
  | cons f fs =>
      rw [group_by_attributes_cons] at h
      injection h with h2
      injection h2 with hW hWd
      subst hW
      subst hWd
      exact ⟨fun hlt => bands_mono_pair _ f fs a sa b sb ha hb hlt,
        fun hlt => bands_mono_pair _ f fs a sa b sb ha hb hlt⟩

/-- C5: on a non-empty batch `group_by_attributes` succeeds, and whenever all
fonts tie on a metric (zero range) every font receives the fixed midpoint
band 5 on that metric, deterministically instead of an error. -/
theorem group_degenerate_batch_gets_five {σ : Type}
    (measure : String → σ → ℚ × ℚ) (fonts : List (String × σ))
    (hne : fonts ≠ []) :
    ∃ weights widths,
      group_by_attributes measure fonts = some (weights, widths) ∧
      ((∀ p ∈ fonts, ∀ q ∈ fonts, (measure p.1 p.2).1 = (measure q.1 q.2).1) →
        ∀ p ∈ weights, p.2 = (5 : Int)) ∧
      ((∀ p ∈ fonts, ∀ q ∈ fonts, (measure p.1 p.2).2 = (measure q.1 q.2).2) →
        ∀ p ∈ widths, p.2 = (5 : Int)) := by
  cases fonts with
  | nil => exact absurd rfl hne
  | cons f fs =>
      refine ⟨_, _, group_by_attributes_cons measure f fs, ?_, ?_⟩
      · intro hall p hp
        exact bands_all_five _ f fs
          (fun q hq => hall q hq f (List.mem_cons_self f fs)) p hp
      · intro hall p hp
        exact bands_all_five _ f fs
          (fun q hq => hall q hq f (List.mem_cons_self f fs)) p hp

/-- C1 witness: a concrete two-font batch with darkness and width values 0
and 1 is accepted and every band of the result lies in 1..10. -/
theorem group_bands_in_range_witness :
    (∀ p ∈ [("A", (1 : Int)), ("B", 10)], 1 ≤ p.2 ∧ p.2 ≤ 10) ∧
    (∀ p ∈ [("A", (1 : Int)), ("B", 10)], 1 ≤ p.2 ∧ p.2 ≤ 10) :=
  group_bands_in_range (fun _ s => (s, s)) [("A", (0 : ℚ)), ("B", 1)]
    [("A", 1), ("B", 10)] [("A", 1), ("B", 10)] (by decide)
    (by norm_num [group_by_attributes, metric_dict, find_extremes, bands,
      band_of, min_def, max_def])

/-- C3 witness: in the batch with darkness values 0 and 1, the minimum font
receives weight band 1. -/
theorem group_extreme_fonts_get_one_and_ten_witness :
    ("A", (1 : Int)) ∈ [("A", (1 : Int)), ("B", 10)] :=
  (group_extreme_fonts_get_one_and_ten (fun _ s => (s, s))
    [("A", (0 : ℚ)), ("B", 1)] [("A", 1), ("B", 10)] [("A", 1), ("B", 10)]
    (by decide)
    (by norm_num [group_by_attributes, metric_dict, find_extremes, bands,
      band_of, min_def, max_def])
    "A" 0 (by decide)).1 (by decide) ⟨("B", 1), by decide, by decide⟩

/-- C4 witness: in the batch with darkness values 0 and 1, the font with the
smaller darkness has a weight band not above the other one. -/
theorem group_bands_monotone_witness :
    ∃ wa wb : Int, ("A", wa) ∈ [("A", (1 : Int)), ("B", 10)] ∧
      ("B", wb) ∈ [("A", (1 : Int)), ("B", 10)] ∧ wa ≤ wb :=
  (group_bands_monotone (fun _ s => (s, s)) [("A", (0 : ℚ)), ("B", 1)]
    [("A", 1), ("B", 10)] [("A", 1), ("B", 10)] (by decide)
    (by norm_num [group_by_attributes, metric_dict, find_extremes, bands,
      band_of, min_def, max_def])
    "A" 0 "B" 1 (by decide) (by decide)).1 (by decide)

/-- C5 witness: a concrete non-empty batch where both fonts tie on both
metrics succeeds and gets only midpoint bands. -/
theorem group_degenerate_batch_gets_five_witness :
    ∃ weights widths,
      group_by_attributes (fun (_ : String) (s : ℚ) => (s, s))
        [("A", (0 : ℚ)), ("B", 0)] = some (weights, widths) ∧
      ((∀ p ∈ [("A", (0 : ℚ)), ("B", 0)], ∀ q ∈ [("A", (0 : ℚ)), ("B", 0)],
          (((fun (_ : String) (s : ℚ) => (s, s)) p.1 p.2).1 =
            ((fun (_ : String) (s : ℚ) => (s, s)) q.1 q.2).1)) →
        ∀ p ∈ weights, p.2 = (5 : Int)) ∧
      ((∀ p ∈ [("A", (0 : ℚ)), ("B", 0)], ∀ q ∈ [("A", (0 : ℚ)), ("B", 0)],
          (((fun (_ : String) (s : ℚ) => (s, s)) p.1 p.2).2 =
            ((fun (_ : String) (s : ℚ) => (s, s)) q.1 q.2).2)) →
        ∀ p ∈ widths, p.2 = (5 : Int)) :=
  group_degenerate_batch_gets_five (fun _ s => (s, s))
    [("A", (0 : ℚ)), ("B", 0)] (by decide)

/-- C6: when the rendered surface has zero area the darkness computation of
`compute_darkness_and_width` fails (the pixel-area denominator is zero and
Python raises) instead of silently returning a darkness of 0. -/
theorem compute_darkness_zero_area_fails (pixel_data : Nat → Nat)
    (data_width data_stride data_height : Nat) (text_width x_height : ℚ)
    (h : data_width * data_height = 0) :
    compute_darkness_and_width pixel_data data_width data_stride data_height
      text_width x_height = none := by
  unfold compute_darkness_and_width
  rw [if_pos h]

/-- C6 witness: a surface of width 0 (height 5) makes the measurement fail. -/
theorem compute_darkness_zero_area_fails_witness :
    0 * 5 = 0 ∧
    compute_darkness_and_width (fun _ => 0) 0 4 5 (3 : ℚ) (2 : ℚ) = none :=
  ⟨rfl, compute_darkness_zero_area_fails (fun _ => 0) 0 4 5 3 2 rfl⟩

/-! Round-trip lemmas for the decimal serialization of band integers:
Python `int` applied to `str` of an int gives the int back. -/

theorem digitChar_isDigit (d : Nat) (h : d < 10) :
    (Nat.digitChar d).isDigit = true := by
  interval_cases d <;> decide

theorem digitVal_digitChar (d : Nat) (h : d < 10) :
    digitVal (Nat.digitChar d) = d := by
  interval_cases d <;> decide

theorem natDigits_all_digit (fuel : Nat) : ∀ (n : Nat), ∀ c ∈ natDigits fuel n,
    c.isDigit = true := by
  induction fuel with
  | zero =>
      intro n c hc
      simp [natDigits] at hc
  | succ fuel ih =>
      intro n c hc
      by_cases hn : n = 0
      · simp [natDigits, hn] at hc
      · simp only [natDigits, if_neg hn] at hc
        rcases List.mem_append.mp hc with h | h
        · exact ih (n / 10) c h
        · rw [List.mem_singleton.mp h]
          exact digitChar_isDigit _ (Nat.mod_lt _ (by norm_num))

theorem natDigits_ne_nil (n : Nat) (hn : n ≠ 0) : natDigits n n ≠ [] := by
  cases n with
  | zero => exact absurd rfl hn
  | succ m =>
      simp only [natDigits, if_neg hn]
      simp

theorem foldl_natDigits (fuel : Nat) : ∀ n a : Nat, n ≤ fuel →
    (natDigits fuel n).foldl (fun acc c => acc * 10 + digitVal c) a =
      a * 10 ^ (natDigits fuel n).length + n := by
  induction fuel with
  | zero =>
      intro n a h
      have hn : n = 0 := Nat.le_zero.mp h
      subst hn
      simp [natDigits]
  | succ fuel ih =>
      intro n a h
      by_cases hn : n = 0
      · subst hn; simp [natDigits]
      · have hdiv : n / 10 ≤ fuel := by
          have := Nat.div_lt_self (Nat.pos_of_ne_zero hn)
            (by norm_num : 1 < 10)
          omega
        have hIH := ih (n / 10) a hdiv
        simp only [natDigits, if_neg hn]
        rw [List.foldl_append, hIH]
        simp only [List.foldl_cons, List.foldl_nil, List.length_append,
          List.length_cons, List.length_nil]
        rw [digitVal_digitChar (n % 10) (Nat.mod_lt _ (by norm_num))]
        calc (a * 10 ^ (natDigits fuel (n / 10)).length + n / 10) * 10 + n % 10
            = a * 10 ^ ((natDigits fuel (n / 10)).length + (0 + 1)) +
              (10 * (n / 10) + n % 10) := by ring
          _ = _ := by rw [Nat.div_add_mod]

theorem parseDigits_natDigits (n : Nat) (hn : n ≠ 0) :
    parseDigits (natDigits n n) = some n := by
  have hne := natDigits_ne_nil n hn
  unfold parseDigits
  rw [if_neg hne, if_pos (List.all_eq_true.mpr
    (fun c hc => natDigits_all_digit n n c hc))]
  rw [foldl_natDigits n n 0 (le_refl n)]
  simp

theorem parseDigits_pyStrNat (n : Nat) :
    parseDigits (pyStrNat n).data = some n := by
  by_cases hn : n = 0
  · subst hn; decide
  · unfold pyStrNat
    rw [if_neg hn]
    exact parseDigits_natDigits n hn

theorem pyStrNat_head (n : Nat) :
    ∃ c rest, (pyStrNat n).data = c :: rest ∧ c.isDigit = true := by
  by_cases hn : n = 0
  · subst hn; exact ⟨'0', [], rfl, by decide⟩
  · unfold pyStrNat
    rw [if_neg hn]
    cases hD : natDigits n n with
    | nil => exact absurd hD (natDigits_ne_nil n hn)
    | cons c rest =>
        exact ⟨c, rest, rfl,
          natDigits_all_digit n n c (by rw [hD]; exact List.mem_cons_self c rest)⟩

theorem pyInt_neg_head (rest : List Char) :
    pyInt ⟨'-' :: rest⟩ = (parseDigits rest).map (fun k => -Int.ofNat k) := rfl

theorem pyInt_digit_head (c : Char) (rest : List Char) (h1 : c ≠ '-')
    (h2 : c ≠ '+') :
    pyInt ⟨c :: rest⟩ =
      (parseDigits (c :: rest)).map (fun k => Int.ofNat k) := by
  show (if c = '-' then (parseDigits rest).map (fun k => -Int.ofNat k)
    else if c = '+' then (parseDigits rest).map (fun k => Int.ofNat k)
    else (parseDigits (c :: rest)).map (fun k => Int.ofNat k)) =
    (parseDigits (c :: rest)).map (fun k => Int.ofNat k)
  rw [if_neg h1, if_neg h2]

theorem pyInt_pyStr (n : Int) : pyInt (pyStr n) = some n := by
  unfold pyStr
  by_cases hneg : n < 0
  · rw [if_pos hneg]
    have hstep : pyInt ("-" ++ pyStrNat n.natAbs) =
        (parseDigits (pyStrNat n.natAbs).data).map (fun k => -Int.ofNat k) :=
      pyInt_neg_head (pyStrNat n.natAbs).data
    rw [hstep, parseDigits_pyStrNat]
    simp only [Option.map_some']
    congr 1
    rw [Int.ofNat_eq_natCast]
    omega
  · rw [if_neg hneg]
    obtain ⟨c, rest, hdata, hdig⟩ := pyStrNat_head n.natAbs
    have hc1 : c ≠ '-' := by
      intro h
      rw [h] at hdig
      exact absurd hdig (by decide)
    have hc2 : c ≠ '+' := by
      intro h
      rw [h] at hdig
      exact absurd hdig (by decide)
    have hstep : pyInt (pyStrNat n.natAbs) =
        (parseDigits (c :: rest)).map (fun k => Int.ofNat k) := by
      rw [show pyStrNat n.natAbs = ⟨c :: rest⟩ from by
        cases hs : pyStrNat n.natAbs
        rw [hs] at hdata
        exact congrArg String.mk hdata]
      exact pyInt_digit_head c rest hc1 hc2
    rw [hstep, ← hdata, parseDigits_pyStrNat]
    simp only [Option.map_some']
    congr 1
    rw [Int.ofNat_eq_natCast]
    omega

/-! Round trip of the record store: writing in non-cleanup mode and reading
the file back. -/

/-- Record as it looks after one save/read round trip: bands and usage are
untouched, a missing subsets value comes back as the empty string (the
`csv` module writes `None` as an empty field). -/
def published_record (r : FontRecord) : FontRecord :=
  ⟨r.weight_int, r.angle_int, r.width_int, r.usage, some (optField r.subsets)⟩

theorem parse_save_row (g : String) (r : FontRecord) :
    parse_row (save_row false g r) = some (g, published_record r) := by
  simp [parse_row, save_row, published_record, pyInt_pyStr, List.get?]

theorem dictInsert_fresh (m : List (String × FontRecord)) (g : String)
    (v : FontRecord) (h : ∀ p ∈ m, p.1 ≠ g) :
    dictInsert m g v = m ++ [(g, v)] := by
  unfold dictInsert
  rw [if_neg]
  intro hany
  obtain ⟨p, hp, hbeq⟩ := List.any_eq_true.mp hany
  exact h p hp (by exact_mod_cast beq_iff_eq.mp hbeq)

theorem read_row_step_save (m : List (String × FontRecord)) (g : String)
    (r : FontRecord) :
    read_row_step m (save_row false g r) =
      some (dictInsert m g (published_record r)) := by
  simp [read_row_step, parse_save_row]

theorem foldlM_read_save (l : List (String × FontRecord)) :
    ∀ acc : List (String × FontRecord),
    ((acc ++ l).map Prod.fst).Nodup →
    List.foldlM read_row_step acc (l.map (fun p => save_row false p.1 p.2)) =
      some (acc ++ l.map (fun p => (p.1, published_record p.2))) := by
  induction l with
  | nil => intro acc h; simp
  | cons q t ih =>
      intro acc h
      rw [List.map_cons, List.foldlM_cons, read_row_step_save]
      have hmap : ((acc ++ q :: t).map Prod.fst) =
          acc.map Prod.fst ++ q.1 :: t.map Prod.fst := by simp
      rw [hmap] at h
      have hdisj := (List.nodup_append.mp h).2.2
      have hfresh : ∀ p ∈ acc, p.1 ≠ q.1 := fun p hp hpq =>
        hdisj (List.mem_map_of_mem Prod.fst hp)
          (by rw [hpq]; exact List.mem_cons_self _ _)
      rw [dictInsert_fresh acc q.1 (published_record q.2) hfresh]
      have h' : (((acc ++ [(q.1, published_record q.2)]) ++ t).map
          Prod.fst).Nodup := by
        have hmap2 : (((acc ++ [(q.1, published_record q.2)]) ++ t).map
            Prod.fst) = acc.map Prod.fst ++ q.1 :: t.map Prod.fst := by simp
        rw [hmap2]
        exact h
      have hIH := ih (acc ++ [(q.1, published_record q.2)]) h'
      show List.foldlM read_row_step (acc ++ [(q.1, published_record q.2)])
          (t.map (fun p => save_row false p.1 p.2)) = _
      rw [hIH]
      congr 1
      simp

theorem read_save_csv (metadata : List (String × FontRecord))
    (hnodup : (metadata.map Prod.fst).Nodup) :
    read_csv (save_csv metadata false) =
      some ((metadata.mergeSort (fun a b => decide (a.1 ≤ b.1))).map
        (fun p => (p.1, published_record p.2))) := by
  have hperm := List.mergeSort_perm metadata (fun a b => decide (a.1 ≤ b.1))
  have hnd : ((metadata.mergeSort (fun a b => decide (a.1 ≤ b.1))).map
      Prod.fst).Nodup := ((hperm.map Prod.fst).nodup_iff).mpr hnodup
  show List.foldlM read_row_step []
      ((metadata.mergeSort (fun a b => decide (a.1 ≤ b.1))).map
        (fun p => save_row false p.1 p.2)) = _
  rw [foldlM_read_save _ [] (by simpa using hnd)]
  simp

theorem lookup_of_mem_nodup (l : List (String × FontRecord)) (g : String)
    (r : FontRecord) (hnd : (l.map Prod.fst).Nodup) (hm : (g, r) ∈ l) :
    l.lookup g = some r := by
  induction l with
  | nil => cases hm
  | cons p t ih =>
      rw [List.map_cons, List.nodup_cons] at hnd
      rcases List.mem_cons.mp hm with h | h
      · rw [← h]
        simp [List.lookup]
      · have hg : g ∈ t.map Prod.fst := List.mem_map_of_mem Prod.fst h
        have hne : (g == p.1) = false :=
          beq_eq_false_iff_ne.mpr (fun hgp => hnd.1 (hgp ▸ hg))
        cases p with
        | mk k v =>
            simp only [List.lookup, hne]
            exact ih hnd.2 h

/-- C7: for every metadata dict with integer bands, saving it with
`save_csv` in non-cleanup mode and reading the file back with `read_csv`
succeeds and returns, for every font name, a record with identical weight,
angle and width band integers and an identical usage tag. -/
theorem save_read_round_trip (metadata : List (String × FontRecord))
    (hnodup : (metadata.map Prod.fst).Nodup) (g : String) (r : FontRecord)
    (hmem : (g, r) ∈ metadata) :
    ∃ m fr, read_csv (save_csv metadata false) = some m ∧
      m.lookup g = some fr ∧ fr.weight_int = r.weight_int ∧
      fr.angle_int = r.angle_int ∧ fr.width_int = r.width_int ∧
      fr.usage = r.usage := by
  have hperm := List.mergeSort_perm metadata (fun a b => decide (a.1 ≤ b.1))
  have hnd : ((metadata.mergeSort (fun a b => decide (a.1 ≤ b.1))).map
      Prod.fst).Nodup := ((hperm.map Prod.fst).nodup_iff).mpr hnodup
  refine ⟨_, published_record r, read_save_csv metadata hnodup, ?_,
    rfl, rfl, rfl, rfl⟩
  apply lookup_of_mem_nodup
  · have hkeys : (((metadata.mergeSort (fun a b => decide (a.1 ≤ b.1))).map
        (fun p => (p.1, published_record p.2))).map Prod.fst) =
        ((metadata.mergeSort (fun a b => decide (a.1 ≤ b.1))).map
          Prod.fst) := by
      rw [List.map_map]
      rfl
    rw [hkeys]
    exact hnd
  · exact List.mem_map_of_mem _ (hperm.mem_iff.mpr hmem)

/-- C7 witness: a concrete single-record store round-trips with identical
bands and usage. -/
theorem save_read_round_trip_witness :
    ∃ m fr,
      read_csv (save_csv [("a", ⟨3, 4, 5, "body", some "latin"⟩)] false) =
        some m ∧
      m.lookup "a" = some fr ∧ fr.weight_int = 3 ∧ fr.angle_int = 4 ∧
      fr.width_int = 5 ∧ fr.usage = "body" :=
  save_read_round_trip [("a", ⟨3, 4, 5, "body", some "latin"⟩)] (by decide)
    "a" ⟨3, 4, 5, "body", some "latin"⟩ (by decide)

/-- C8: in publish-cleanup mode `save_csv` writes a row for every font (no
error): a band value outside 1..10 is blanked, a usage other than body or
header is blanked, and a usage of body is written unchanged; an in-range
band is written as its decimal string. -/
theorem save_csv_cleanup_redacts (metadata : List (String × FontRecord))
    (g : String) (r : FontRecord) (hmem : (g, r) ∈ metadata) :
    ∃ row, row ∈ save_csv metadata true ∧
      row.get? 0 = some g ∧
      (¬(1 ≤ r.weight_int ∧ r.weight_int ≤ 10) → row.get? 1 = some "") ∧
      ((1 ≤ r.weight_int ∧ r.weight_int ≤ 10) →
        row.get? 1 = some (pyStr r.weight_int)) ∧
      (¬(1 ≤ r.angle_int ∧ r.angle_int ≤ 10) → row.get? 2 = some "") ∧
      (¬(1 ≤ r.width_int ∧ r.width_int ≤ 10) → row.get? 3 = some "") ∧
      ((r.usage ≠ "body" ∧ r.usage ≠ "header") → row.get? 4 = some "") ∧
      (r.usage = "body" → row.get? 4 = some "body") := by
  have hperm := List.mergeSort_perm metadata (fun a b => decide (a.1 ≤ b.1))
  have hmem2 : (g, r) ∈ metadata.mergeSort (fun a b => decide (a.1 ≤ b.1)) :=
    hperm.mem_iff.mpr hmem
  refine ⟨save_row true g r,
    List.mem_cons_of_mem _ (List.mem_map_of_mem _ hmem2),
    ?_, ?_, ?_, ?_, ?_, ?_, ?_⟩
  · simp [save_row, List.get?]
  · intro h
    simp [save_row, List.get?, if_neg h]
  · intro h
    simp [save_row, List.get?, if_pos h]
  · intro h
    simp [save_row, List.get?, if_neg h]
  · intro h
    simp [save_row, List.get?, if_neg h]
  · intro h
    have hcond : ¬(r.usage = "body" ∨ r.usage = "header") := by
      rintro (h1 | h2)
      · exact h.1 h1
      · exact h.2 h2
    simp [save_row, List.get?, if_neg hcond]
  · intro h
    have hcond : r.usage = "body" ∨ r.usage = "header" := Or.inl h
    simp [save_row, List.get?, if_pos hcond, h]

/-- C8 witness: a record with weight band 0, angle band 11, width band 3 and
usage decorative gets its out-of-range bands and its usage blanked, while
the in-range width band is kept. -/
theorem save_csv_cleanup_redacts_witness :
    ∃ row, row ∈ save_csv [("a", ⟨0, 11, 3, "decorative", none⟩)] true ∧
      row.get? 0 = some "a" ∧
      (¬((1 : Int) ≤ 0 ∧ (0 : Int) ≤ 10) → row.get? 1 = some "") ∧
      (((1 : Int) ≤ 0 ∧ (0 : Int) ≤ 10) → row.get? 1 = some (pyStr 0)) ∧
      (¬((1 : Int) ≤ 11 ∧ (11 : Int) ≤ 10) → row.get? 2 = some "") ∧
      (¬((1 : Int) ≤ 3 ∧ (3 : Int) ≤ 10) → row.get? 3 = some "") ∧
      (("decorative" ≠ "body" ∧ "decorative" ≠ "header") →
        row.get? 4 = some "") ∧
      ("decorative" = "body" → row.get? 4 = some "body") :=
  save_csv_cleanup_redacts [("a", ⟨0, 11, 3, "decorative", none⟩)] "a"
    ⟨0, 11, 3, "decorative", none⟩ (by decide)

/-- C9 counterexample: a data row with fewer than 6 fields is not always
read successfully; a row with only 2 fields is missing mandatory fields and
the whole read fails (IndexError in Python), so the claim is false as
stated. -/
theorem read_csv_short_row_errors :
    read_csv [["GFN", "FWE", "FIA", "FWI", "USAGE"], ["FontA", "3"]] =
      none := by decide

/-- C9 amended: a data row that carries the five mandatory fields with
integer band fields, but fewer than 6 fields, is read successfully and its
SUBSETS value is treated as absent rather than an error. -/
theorem read_csv_five_field_row (hdr : List String) (g w a wd u : String)
    (wi ai wdi : Int) (hw : pyInt w = some wi) (ha : pyInt a = some ai)
    (hwd : pyInt wd = some wdi) :
    read_csv [hdr, [g, w, a, wd, u]] =
      some [(g, ⟨wi, ai, wdi, u, none⟩)] := by
  show List.foldlM read_row_step [] [[g, w, a, wd, u]] = _
  simp [List.foldlM_cons, List.foldlM_nil, read_row_step, parse_row,
    List.get?, hw, ha, hwd, dictInsert]

/-- C9 amended witness: a concrete 5-field row is read with subsets absent. -/
theorem read_csv_five_field_row_witness :
    pyInt "1" = some 1 ∧ pyInt "2" = some 2 ∧ pyInt "3" = some 3 ∧
    read_csv [["GFN"], ["g", "1", "2", "3", "body"]] =
      some [("g", ⟨1, 2, 3, "body", none⟩)] :=
  ⟨by decide, by decide, by decide,
    read_csv_five_field_row ["GFN"] "g" "1" "2" "3" "body" 1 2 3
      (by decide) (by decide) (by decide)⟩
